import Mathlib

set_option maxRecDepth 4000

/-!
Shallow embedding of the Minesweeper rule engine in src/js/Game.js
(class Game).  The grid is `cells : List (List Cell)` indexed
`[row][col]` exactly as `this.#cells`; all mutation is explicit state
passing on `GameState`.  The recursive reveal (`#clickCell` /
`#setCellValue`) is embedded with an explicit fuel parameter; `none`
means the fuel ran out (the JS recursion has no such bound, and the
termination theorem below shows the fuel `rows*cols + 1` is never
exhausted, so the two agree on every actual run).
-/

namespace Saper

/-- Modelled from the spec: `Cell.js` is not under `src/`; only
`src/js/Game.js` is.  Per spec section 3, a cell carries immutable
coordinates `x`, `y`, the hazard bit, the player flag, the reveal bit
and the lazily stored adjacency value (JS field `value`, initially
null, hence `Option`). -/
structure Cell where
  x : Nat
  y : Nat
  isMine : Bool
  isFlagged : Bool
  isReveal : Bool
  value : Option Nat
deriving Repr, DecidableEq

/-- Modelled from the spec: `markHazard` / `addMine` sets the hazard bit. -/
def Cell.addMine (c : Cell) : Cell := { c with isMine := true }

/-- Modelled from the spec: `revealCell` sets `isRevealed = true`
(idempotent at the cell level). -/
def Cell.revealCell (c : Cell) : Cell := { c with isReveal := true }

/-- Modelled from the spec: `toggleFlag` flips `isFlagged`, permitted
only while the cell is unrevealed (spec section 4.1). -/
def Cell.toggleFlag (c : Cell) : Cell :=
  if c.isReveal then c else { c with isFlagged := !c.isFlagged }

/-- The session state of class `Game`: board dimensions and mine count
(`#numberOfRowes`, `#numberOfCols`, `#numberOfMines`), the grid
`#cells`, the remaining-flag counter (`#counter`, whose `Counter.js`
widget is not under `src/` and is modelled from the spec as a plain
value with setValue/increment/decrement), `#cellsToReveal`,
`#revealedCells`, `#isGameFinished`, and the win/loss outcome reported
to `#endGame` (`none` while the session is active). -/
structure GameState where
  rows : Nat
  cols : Nat
  mines : Nat
  cells : List (List Cell)
  counterValue : Nat
  cellsToReveal : Nat
  revealedCells : Nat
  isGameFinished : Bool
  outcome : Option Bool
deriving Repr, DecidableEq

/-- Replace the element at index `i` by `f` of it (out-of-range is the
identity); used to model in-place mutation of one cell of `#cells`. -/
def listModify (f : α → α) : Nat → List α → List α
  | _, [] => []
  | 0, a :: t => f a :: t
  | n+1, a :: t => a :: listModify f n t

/-- Index lookup, `none` out of range (JS `undefined`). -/
def listGet? : List α → Nat → Option α
  | [], _ => none
  | a :: _, 0 => some a
  | _ :: t, n+1 => listGet? t n

/-- `this.#cells[y][x]`, as an `Option` (JS yields `undefined` out of
range). -/
def getCell (s : GameState) (y x : Nat) : Option Cell :=
  (listGet? s.cells y).bind fun row => listGet? row x

/-- Mutate the cell object stored at `[y][x]`. -/
def modifyCell (s : GameState) (y x : Nat) (f : Cell → Cell) : GameState :=
  { s with cells := listModify (listModify f x) y s.cells }

/-- `this.#cells[row][col].isMine` (false when the lookup fails; on a
well-formed board the lookup never fails there). -/
def isMineAt (s : GameState) (y x : Nat) : Bool :=
  match getCell s y x with
  | some c => c.isMine
  | none => false

/-- The inclusive index range `[lo, hi]` of a JS `for` loop
(empty when `hi < lo`). -/
def clampRange (lo hi : Nat) : List Nat := List.range' lo (hi + 1 - lo)

/-- The row-major list of positions scanned by the two nested loops of
`#setCellValue`: rows `Math.max(y-1,0) .. Math.min(y+1, rows-1)`,
columns `Math.max(x-1,0) .. Math.min(x+1, cols-1)`.  Note this
includes the centre `(y, x)` itself. -/
def neighborhood (rows cols y x : Nat) : List (Nat × Nat) :=
  (clampRange (y - 1) (min (y + 1) (rows - 1))).flatMap fun r =>
    (clampRange (x - 1) (min (x + 1) (cols - 1))).map fun c => (r, c)

/-- The `minesCount` computed by the first loop of `#setCellValue`:
hazards in the clamped 3x3 block around `(y, x)`, centre included. -/
def minesAround (s : GameState) (y x : Nat) : Nat :=
  (neighborhood s.rows s.cols y x).countP fun p => isMineAt s p.1 p.2

/-- `cell.value = minesCount; cell.revealCell(); this.#revealedCells++`
from `#setCellValue`. -/
def applyReveal (s : GameState) (y x n : Nat) : GameState :=
  let s1 := modifyCell s y x fun c => { c with value := some n, isReveal := true }
  { s1 with revealedCells := s1.revealedCells + 1 }

/-- `#revealMines`: reveal every cell that carries a mine. -/
def revealMines (s : GameState) : GameState :=
  { s with cells := s.cells.map fun row => row.map fun c =>
      if c.isMine then c.revealCell else c }

/-- `#endGame(isWin)`: mark the session finished, record the outcome,
and on a loss reveal all mines.  (Timer, modal and reset-button calls
are external collaborators outside the core.) -/
def endGame (s : GameState) (isWin : Bool) : GameState :=
  let s1 := { s with isGameFinished := true, outcome := some isWin }
  if isWin then s1 else revealMines s1

/-- The cascade loop at the end of `#setCellValue`: for each scanned
position, if the cell there is not yet revealed, recurse through
`click` (a fuelled `#clickCell`); threading of the mutated state is
explicit.  A failed lookup is skipped (it cannot occur on a
well-formed board, where the scanned positions are always in range;
in JS it would throw before mutating anything). -/
def cascadeRun (click : GameState → Nat → Nat → Option GameState) :
    GameState → List (Nat × Nat) → Option GameState
  | s, [] => some s
  | s, p :: rest =>
    match getCell s p.1 p.2 with
    | none => cascadeRun click s rest
    | some cell =>
      if cell.isReveal then cascadeRun click s rest
      else
        match click s p.1 p.2 with
        | none => none
        | some s1 => cascadeRun click s1 rest

/-- `#clickCell(cell)` together with the inlined `#setCellValue(cell)`
it calls, with fuel.  Mirrors the source line by line:
guard on `#isGameFinished || cell.isFlagged`; `#endGame(false)` on a
mine; compute `minesCount` over the clamped 3x3 block around the
cell's own stored coordinates (`const {x, y} = cell`); store the value,
reveal, increment `#revealedCells`; cascade when the count is zero;
finally the win check `#revealedCells === #cellsToReveal &&
!#isGameFinished`.  There is no guard on `cell.isReveal`. -/
def clickCell : Nat → GameState → Nat → Nat → Option GameState
  | 0 => fun _ _ _ => none
  | fuel+1 => fun s y x =>
    match getCell s y x with
    | none => some s
    | some c =>
      if s.isGameFinished || c.isFlagged then some s
      else
        let s1 := if c.isMine then endGame s false else s
        let n := minesAround s1 c.y c.x
        let s2 := applyReveal s1 y x n
        let s3o := if n == 0 then
            cascadeRun (fun a b d => clickCell fuel a b d) s2
              (neighborhood s1.rows s1.cols c.y c.x)
          else some s2
        match s3o with
        | none => none
        | some s3 =>
          some (if s3.revealedCells == s3.cellsToReveal && !s3.isGameFinished
                then endGame s3 true else s3)

/-- `this.#cells[y]` as indexed by `#handleCellClick` /
`#handleCellContextMenu` (a negative or out-of-range index yields
`undefined`). -/
def lookupRow (s : GameState) (y : Int) : Option (List Cell) :=
  if y < 0 then none else listGet? s.cells y.toNat

/-- `this.#cells[y][x]` from the two event handlers.  Outer `none`:
`#cells[y]` is `undefined`, so the `[x]` access itself throws.
`some none`: the row exists but `#cells[y][x]` is `undefined`. -/
def lookupCellI (s : GameState) (y x : Int) : Option (Option Cell) :=
  (lookupRow s y).map fun row => if x < 0 then none else listGet? row x.toNat

/-- `#handleCellClick`: look the cell up by its `data-y` / `data-x`
attributes and call `#clickCell`.  The Boolean records whether the
handler aborted with a thrown `TypeError` (row lookup `undefined`, or
`cell.isFlagged` read on `undefined` while the game is not finished);
in every such case the throw happens before any mutation, so the
returned state is unchanged.  A fuel-exhausted `clickCell` — shown
impossible with fuel `rows*cols + 1` by the termination theorem — is
likewise mapped to an aborting run with the state unchanged. -/
def handleCellClick (fuel : Nat) (s : GameState) (y x : Int) : Bool × GameState :=
  match lookupCellI s y x with
  | none => (true, s)
  | some none => if s.isGameFinished then (false, s) else (true, s)
  | some (some _) =>
    match clickCell fuel s y.toNat x.toNat with
    | none => (true, s)
    | some s1 => (false, s1)

/-- `#handleCellContextMenu`: no-op if the cell is revealed or the game
is finished; unflagging increments the remaining-flag counter; flagging
is allowed only while the counter is nonzero (`!!this.#counter.value`)
and decrements it.  The Boolean is as in `handleCellClick` (here
`cell.isReveal` is read before the finished check, so an `undefined`
cell always throws). -/
def handleCellContextMenu (s : GameState) (y x : Int) : Bool × GameState :=
  match lookupCellI s y x with
  | none => (true, s)
  | some none => (true, s)
  | some (some c) =>
    if c.isReveal || s.isGameFinished then (false, s)
    else if c.isFlagged then
      (false, { modifyCell s y.toNat x.toNat Cell.toggleFlag with
                counterValue := s.counterValue + 1 })
    else if s.counterValue != 0 then
      (false, { modifyCell s y.toNat x.toNat Cell.toggleFlag with
                counterValue := s.counterValue - 1 })
    else (false, s)

/-- `#generateCells`: a fresh `rows x cols` grid, `new Cell(col, row)`
pushed at `[row][col]`. -/
def mkCells (rows cols : Nat) : List (List Cell) :=
  (List.range rows).map fun row =>
    (List.range cols).map fun col =>
      { x := col, y := row, isMine := false, isFlagged := false,
        isReveal := false, value := none }

/-- `#placeMinesInCells`: rejection sampling driven by the injected
random source `stream` (the pair drawn at call `k` stands for the two
`#getRandomInteger` calls of one loop iteration), with fuel for the
unbounded `while`.  A lookup failure (an out-of-range draw, impossible
for an in-range generator) aborts, as the JS `cell.isMine` read would
throw. -/
def placeMinesAux (stream : Nat → Nat × Nat) :
    Nat → Nat → Nat → GameState → Option GameState
  | _, _, 0, s => some s
  | 0, _, _+1, _ => none
  | fuel+1, k, remaining+1, s =>
    let rc := stream k
    match getCell s rc.1 rc.2 with
    | none => none
    | some cell =>
      if cell.isMine then placeMinesAux stream fuel (k+1) (remaining+1) s
      else placeMinesAux stream fuel (k+1) remaining
        (modifyCell s rc.1 rc.2 Cell.addMine)

/-- `#newGame(rows, cols, mines)`: record the configuration, set the
counter to the mine count, compute `#cellsToReveal = cols*rows - mines`,
generate fresh cells, place the mines, and reset `#isGameFinished` and
`#revealedCells`.  (Rendering, styles and event listeners are external.) -/
def newGameState (rows cols mines : Nat) (stream : Nat → Nat × Nat)
    (fuel : Nat) : Option GameState :=
  let s0 : GameState :=
    { rows := rows, cols := cols, mines := mines,
      cells := mkCells rows cols,
      counterValue := mines,
      cellsToReveal := cols * rows - mines,
      revealedCells := 0,
      isGameFinished := false,
      outcome := none }
  placeMinesAux stream fuel 0 mines s0

/-- Sum of a `Nat` weight over a list. -/
def sumBy (q : α → Nat) (l : List α) : Nat := (l.map q).sum

/-- Weight 1 on unrevealed cells. -/
def unrevW (c : Cell) : Nat := if c.isReveal then 0 else 1

/-- Number of cells with `isReveal = false`. -/
def unrevealedCount (s : GameState) : Nat :=
  sumBy (fun row => sumBy unrevW row) s.cells

/-- Number of cells with `isReveal = true`. -/
def revealedCellCount (s : GameState) : Nat :=
  sumBy (fun row => sumBy (fun c => if c.isReveal then 1 else 0) row) s.cells

/-- Number of cells with `isMine = true`. -/
def mineCount (s : GameState) : Nat :=
  sumBy (fun row => sumBy (fun c => if c.isMine then 1 else 0) row) s.cells

/-- Hazards among the up-to-8 in-bounds neighbours of `(y, x)`, the
cell itself excluded — the quantity named `adjacentCount` by the
specification. -/
def adjacentMinesExclSelf (s : GameState) (y x : Nat) : Nat :=
  ((neighborhood s.rows s.cols y x).filter fun p => p ≠ (y, x)).countP
    fun p => isMineAt s p.1 p.2

/-- The grid really is `rows` rows of `cols` cells. -/
def cellsShapeB (s : GameState) : Bool :=
  s.cells.length == s.rows && s.cells.all fun row => row.length == s.cols

/-- Every cell's stored coordinates match its grid slot (`new Cell(col,
row)` pushed at `[row][col]` in `#generateCells`). -/
def WFcoords (s : GameState) : Prop :=
  ∀ y x c, getCell s y x = some c → c.y = y ∧ c.x = x

/-- Every revealed non-mine cell stores exactly the hazard count of its
clamped 3x3 block (which, centre being non-hazardous, is its
neighbour hazard count). -/
def ValOK (s : GameState) : Prop :=
  ∀ y x c, getCell s y x = some c → c.isMine = false → c.isReveal = true →
    c.value = some (minesAround s y x)

/-- The state invariant carried across requests. -/
def Inv (s : GameState) : Prop :=
  cellsShapeB s = true ∧ WFcoords s ∧ ValOK s

/-- The metadata and per-cell facts preserved by every in-session
operation: dimensions, mine layout and stored coordinates. -/
def Preserves (s s1 : GameState) : Prop :=
  s1.rows = s.rows ∧ s1.cols = s.cols ∧
  s1.cells.length = s.cells.length ∧
  (∀ y x, (getCell s1 y x).map (fun c => c.isMine) =
    (getCell s y x).map (fun c => c.isMine)) ∧
  (∀ y x, (getCell s1 y x).map (fun c => (c.x, c.y)) =
    (getCell s y x).map (fun c => (c.x, c.y))) ∧
  (∀ y x, (getCell s1 y x).isSome = (getCell s y x).isSome) ∧
  (∀ row ∈ s1.cells, ∃ row0 ∈ s.cells, row.length = row0.length)

/-- The states a session can be in: a fresh game followed by any
sequence of reveal and flag requests. -/
inductive Reachable : GameState → Prop
  | init (rows cols mines : Nat) (stream : Nat → Nat × Nat) (fuel : Nat)
      (s : GameState) (h : newGameState rows cols mines stream fuel = some s) :
      Reachable s
  | reveal (s : GameState) (fuel : Nat) (y x : Int) (h : Reachable s) :
      Reachable (handleCellClick fuel s y x).2
  | flag (s : GameState) (y x : Int) (h : Reachable s) :
      Reachable (handleCellContextMenu s y x).2

/-- A 1x4 session, mine in the last column: clicking the already
revealed `(row 0, col 2)` twice and then column 0. -/
def traceC1 : Option GameState :=
  (newGameState 1 4 1 (fun _ => (0, 3)) 3).map fun s0 =>
    (handleCellClick 9
      ((handleCellClick 9 ((handleCellClick 9 s0 0 2).2) 0 2).2) 0 0).2

/-- A 2x2 session, mine at `(row 1, col 1)`: clicking `(0,0)` twice. -/
def traceC2 : Option GameState :=
  (newGameState 2 2 1 (fun _ => (1, 1)) 3).map fun s0 =>
    (handleCellClick 9 ((handleCellClick 9 s0 0 0).2) 0 0).2

/-- A 2x4 session, mine at `(row 0, col 3)`: four clicks on
`(row 1, col 3)` (one real reveal, three double counts), then a click
on the zero cell `(0,0)`. -/
def traceC3 : Option GameState :=
  (newGameState 2 4 1 (fun _ => (0, 3)) 3).map fun s0 =>
    (handleCellClick 20 ((handleCellClick 20 ((handleCellClick 20
      ((handleCellClick 20 ((handleCellClick 20 s0 1 3).2) 1 3).2)
        1 3).2) 1 3).2) 0 0).2

/-- A 1x2 session with the mine at `(0,0)` flagged by a flag request. -/
def traceC4 : Option GameState :=
  (newGameState 1 2 1 (fun _ => (0, 0)) 3).map fun s0 =>
    (handleCellContextMenu s0 0 0).2

/-- A 1x2 session, mine at `(0,0)`, where the mine is clicked (a loss
that reveals the triggering mine). -/
def traceC5 : Option GameState :=
  (newGameState 1 2 1 (fun _ => (0, 0)) 3).map fun s0 =>
    (handleCellClick 9 s0 0 0).2

/-- No cell of the board is revealed (the situation right after
`#newGame`, before any reveal request). -/
def AllUnrev (s : GameState) : Prop :=
  ∀ y x c, getCell s y x = some c → c.isReveal = false

/-- The concrete fresh 1x2 session with its single mine drawn at
`(0,0)`. -/
def initC5 : GameState :=
  (newGameState 1 2 1 (fun _ => (0, 0)) 3).getD
    { rows := 0, cols := 0, mines := 0, cells := [], counterValue := 0,
      cellsToReveal := 0, revealedCells := 0, isGameFinished := false,
      outcome := none }

/-- `initC5` after a reveal request on the safe cell `(row 0, col 1)`. -/
def stateC5 : GameState := (handleCellClick 9 initC5 0 1).2

/-- A concrete well-formed 1x2 active session (mine at `(0,0)`,
nothing flagged or revealed) used to instantiate universal theorems. -/
def demoState : GameState :=
  { rows := 1, cols := 2, mines := 1,
    cells := [[
      { x := 0, y := 0, isMine := true, isFlagged := false,
        isReveal := false, value := none },
      { x := 1, y := 0, isMine := false, isFlagged := false,
        isReveal := false, value := none }]],
    counterValue := 1, cellsToReveal := 1, revealedCells := 0,
    isGameFinished := false, outcome := none }

/-- `demoState` after its session has finished with a loss. -/
def demoFinished : GameState :=
  { demoState with isGameFinished := true, outcome := some false }

/-- `demoState` with the mine cell flagged and the flag counter spent. -/
def demoFlagged : GameState :=
  { demoState with
    cells := [[
      { x := 0, y := 0, isMine := true, isFlagged := true,
        isReveal := false, value := none },
      { x := 1, y := 0, isMine := false, isFlagged := false,
        isReveal := false, value := none }]],
    counterValue := 0 }

/-- C1.  The claim fails on the code: `#clickCell` has no guard on
`cell.isReveal`, so re-clicking a revealed cell re-runs
`#setCellValue` and re-increments `#revealedCells`.  On the reachable
1x4 session of `traceC1` (mine in column 3, `cellsToReveal = 3`),
clicking `(0,2)` twice inflates the counter, and the following click
on the zero cell `(0,0)` cascades past the bound: the final
`revealedCells` is `4 > 3 = rows*cols - hazardCount`, only the 3 safe
cells are actually revealed, and the session never reaches
`Finished(Win)` although every non-hazard cell is revealed. -/
theorem C1_revealed_exceeds_bound :
    traceC1.map (fun s => (s.revealedCells, s.cellsToReveal,
      s.isGameFinished, s.outcome, revealedCellCount s)) =
    some (4, 3, false, none, 3) := by decide

/-- C2.  The claim fails on the code: a reveal request on the already
revealed, unflagged cell `(0,0)` of the active 2x2 session of
`traceC2` increments `#revealedCells` a second time — after two clicks
of the same cell the counter reads 2 although exactly one cell is
revealed (`#clickCell` lacks the `isReveal` guard the specification
requires of the caller). -/
theorem C2_reclick_double_counts :
    traceC2.map (fun s => (s.revealedCells, revealedCellCount s,
      s.isGameFinished)) = some (2, 1, false) := by decide

/-- C3.  The claim fails on the code: in `traceC3` the counter is first
inflated to 4 by re-clicking the revealed cell `(row 1, col 3)`; the
subsequent reveal request on the zero-adjacency cell `(row 0, col 0)`
then hits `#revealedCells === #cellsToReveal` in the middle of the
cascade, `#endGame(true)` fires, and the `#isGameFinished` guard stops
the rest of the flood: the unflagged non-hazard cell `(row 1, col 0)`
— zero-adjacency and directly adjacent to the clicked zero cell, hence
reachable through a chain of zero-adjacency cells — is left
unrevealed while the session ends in `Finished(Win)`. -/
theorem C3_cascade_truncated_by_spurious_win :
    traceC3.map (fun s => (s.outcome,
      (getCell s 1 0).map (fun c => (c.isReveal, c.isFlagged, c.isMine)),
      minesAround s 1 0, minesAround s 0 0, isMineAt s 0 0)) =
    some (some true, some (false, false, false), 0, 0, false) := by decide

/-- C4, counterexample.  In the active reachable session of `traceC4`
the cell `(0,0)` is a flagged hazard; a reveal request targeting it is
a no-op (the `cell.isFlagged` guard of `#clickCell` fires first), so
the session does **not** transition to `Finished(Loss)`: the claim as
stated fails for flagged hazard cells. -/
theorem C4_flagged_hazard_counterexample :
    traceC4.map (fun s =>
      ((getCell s 0 0).map (fun c => (c.isMine, c.isFlagged)),
       s.isGameFinished,
       (let r := handleCellClick 9 s 0 0
        (r.2 == s, r.2.isGameFinished, r.2.outcome)))) =
    some (some (true, true), false, (true, false, none)) := by decide

/-- C5, counterexample.  The scan loop of `#setCellValue` runs over the
clamped 3x3 block **including the cell itself**; revealing the hazard
cell `(0,0)` of `traceC5` (the loss-triggering mine, which the engine
still reveals) stores `value = 1` although the cell has 0 hazards
among its neighbours with itself excluded: the claim as stated fails
for revealed hazard cells. -/
theorem C5_hazard_cell_counts_itself :
    traceC5.map (fun s =>
      ((getCell s 0 0).map (fun c => (c.value, c.isReveal, c.isMine)),
       adjacentMinesExclSelf s 0 0, s.outcome)) =
    some (some (some 1, true, true), 0, some false) := by decide

theorem listModify_length (f : α → α) :
    ∀ (i : Nat) (l : List α), (listModify f i l).length = l.length := by
  intro i l
  induction l generalizing i with
  | nil => cases i <;> rfl
  | cons a t ih =>
    cases i with
    | zero => rfl
    | succ n => simpa [listModify] using ih n

theorem listGet?_eq_none_iff :
    ∀ (l : List α) (n : Nat), listGet? l n = none ↔ l.length ≤ n := by
  intro l
  induction l with
  | nil => intro n; simp [listGet?]
  | cons a t ih =>
    intro n
    cases n with
    | zero => simp [listGet?]
    | succ m => simpa [listGet?, Nat.succ_le_succ_iff] using ih m

theorem listGet?_mem {l : List α} {n : Nat} {a : α}
    (h : listGet? l n = some a) : a ∈ l := by
  induction l generalizing n with
  | nil => simp [listGet?] at h
  | cons b t ih =>
    cases n with
    | zero =>
      simp only [listGet?, Option.some.injEq] at h
      exact h ▸ List.mem_cons_self b t
    | succ m => exact List.mem_cons_of_mem b (ih h)

theorem listModify_get_eq (f : α → α) :
    ∀ (i : Nat) (l : List α),
      listGet? (listModify f i l) i = (listGet? l i).map f := by
  intro i l
  induction l generalizing i with
  | nil => cases i <;> rfl
  | cons a t ih =>
    cases i with
    | zero => rfl
    | succ n => simpa [listModify, listGet?] using ih n

theorem listModify_get_ne (f : α → α) :
    ∀ (i j : Nat) (l : List α), i ≠ j →
      listGet? (listModify f i l) j = listGet? l j := by
  intro i j l
  induction l generalizing i j with
  | nil => intro _; cases i <;> rfl
  | cons a t ih =>
    intro hij
    cases i with
    | zero =>
      cases j with
      | zero => exact absurd rfl hij
      | succ m => rfl
    | succ n =>
      cases j with
      | zero => rfl
      | succ m => simpa [listModify, listGet?] using ih n m (by omega)

theorem getCell_modifyCell_self (s : GameState) (y x : Nat) (f : Cell → Cell) :
    getCell (modifyCell s y x f) y x = (getCell s y x).map f := by
  unfold getCell modifyCell
  cases hrow : listGet? s.cells y with
  | none => simp [listModify_get_eq, hrow]
  | some row => simp [listModify_get_eq, hrow]

theorem getCell_modifyCell_ne (s : GameState) (y x y1 x1 : Nat)
    (f : Cell → Cell) (h : y ≠ y1 ∨ x ≠ x1) :
    getCell (modifyCell s y x f) y1 x1 = getCell s y1 x1 := by
  unfold getCell modifyCell
  by_cases hy : y = y1
  · have hx : x ≠ x1 := by
      rcases h with h | h
      · exact absurd hy h
      · exact h
    subst hy
    cases hrow : listGet? s.cells y with
    | none => simp [listModify_get_eq, hrow]
    | some row => simp [listModify_get_eq, hrow, listModify_get_ne _ _ _ _ hx]
  · simp [listModify_get_ne _ _ _ _ hy]

theorem getCell_eq_some {s : GameState} {y x : Nat} {c : Cell}
    (h : getCell s y x = some c) :
    ∃ row, listGet? s.cells y = some row ∧ listGet? row x = some c := by
  unfold getCell at h
  cases hrow : listGet? s.cells y with
  | none => rw [hrow] at h; exact absurd h (by simp)
  | some row => rw [hrow] at h; exact ⟨row, rfl, h⟩

theorem sumBy_cons (q : α → Nat) (a : α) (l : List α) :
    sumBy q (a :: l) = q a + sumBy q l := by
  simp [sumBy]

theorem sumBy_listModify_eq (q : α → Nat) (g : α → α) :
    ∀ (i : Nat) (l : List α) (a : α), listGet? l i = some a →
      sumBy q (listModify g i l) + q a = sumBy q l + q (g a) := by
  intro i l
  induction l generalizing i with
  | nil => intro a h; simp [listGet?] at h
  | cons b t ih =>
    intro a h
    cases i with
    | zero =>
      simp only [listGet?, Option.some.injEq] at h
      subst h
      simp only [listModify, sumBy_cons]
      omega
    | succ n =>
      simp only [listGet?] at h
      have := ih n a h
      simp only [listModify, sumBy_cons]
      omega

theorem listGet?_le_sumBy (q : α → Nat) :
    ∀ (i : Nat) (l : List α) (a : α), listGet? l i = some a →
      q a ≤ sumBy q l := by
  intro i l
  induction l generalizing i with
  | nil => intro a h; simp [listGet?] at h
  | cons b t ih =>
    intro a h
    cases i with
    | zero =>
      simp only [listGet?, Option.some.injEq] at h
      subst h
      simp only [sumBy_cons]
      omega
    | succ n =>
      have := ih n a h
      simp only [sumBy_cons]
      omega

theorem mineCount_addMine {s : GameState} {y x : Nat} {c : Cell}
    (hg : getCell s y x = some c) (hm : c.isMine = false) :
    mineCount (modifyCell s y x Cell.addMine) = mineCount s + 1 := by
  obtain ⟨row, hrow, hcol⟩ := getCell_eq_some hg
  have hinner := sumBy_listModify_eq
    (fun c => if c.isMine then 1 else 0) Cell.addMine x row c hcol
  have houter := sumBy_listModify_eq
    (fun row => sumBy (fun c => if c.isMine then 1 else 0) row)
    (listModify Cell.addMine x) y s.cells row hrow
  simp [Cell.addMine, hm] at hinner
  dsimp only at houter
  unfold mineCount modifyCell
  dsimp only
  omega

theorem mineCount_placeMinesAux (stream : Nat → Nat × Nat) :
    ∀ (fuel k m : Nat) (s s1 : GameState),
      placeMinesAux stream fuel k m s = some s1 →
      mineCount s1 = mineCount s + m := by
  intro fuel
  induction fuel with
  | zero =>
    intro k m s s1 h
    cases m with
    | zero =>
      simp only [placeMinesAux, Option.some.injEq] at h
      subst h; rfl
    | succ m => simp [placeMinesAux] at h
  | succ f ih =>
    intro k m s s1 h
    cases m with
    | zero =>
      simp only [placeMinesAux, Option.some.injEq] at h
      subst h; rfl
    | succ m =>
      rw [placeMinesAux] at h
      cases hg : getCell s (stream k).1 (stream k).2 with
      | none => simp [hg] at h
      | some cell =>
        simp only [hg] at h
        by_cases hm : cell.isMine
        · rw [if_pos hm] at h
          exact ih (k+1) (m+1) s s1 h
        · rw [if_neg hm] at h
          have hrec := ih (k+1) m _ s1 h
          have hadd := mineCount_addMine hg (by simpa using hm)
          omega

theorem mineCount_mkCells_zero (rows cols mines cnt ctr rv : Nat)
    (fin : Bool) (oc : Option Bool) :
    mineCount { rows := rows, cols := cols, mines := mines,
                cells := mkCells rows cols, counterValue := ctr,
                cellsToReveal := cnt, revealedCells := rv,
                isGameFinished := fin, outcome := oc } = 0 := by
  unfold mineCount sumBy
  apply List.sum_eq_zero
  intro v hv
  simp only [List.mem_map, mkCells, List.mem_range] at hv
  obtain ⟨row, ⟨r, _, hrow⟩, hval⟩ := hv
  subst hrow hval
  apply List.sum_eq_zero
  intro w hw
  simp only [List.mem_map, List.mem_range] at hw
  obtain ⟨cc, ⟨col, _, hcol⟩, hval⟩ := hw
  subst hcol hval
  rfl

/-- C6.  Whenever the rejection-sampling loop of `#placeMinesInCells`
completes (for any injected random stream and any configuration), the
board holds exactly `hazardCount` mined cells: a draw landing on an
already-mined cell changes nothing and is retried, and `addMine` on a
fresh cell raises the mine total by exactly one, so no cell is ever
counted twice. -/
theorem C6_placement_exact_count (rows cols mines : Nat)
    (stream : Nat → Nat × Nat) (fuel : Nat) (s1 : GameState)
    (h : newGameState rows cols mines stream fuel = some s1) :
    mineCount s1 = mines := by
  unfold newGameState at h
  have := mineCount_placeMinesAux stream fuel 0 mines _ s1 h
  rwa [mineCount_mkCells_zero, Nat.zero_add] at this

/-- The placement theorem applied to a concrete 2x2 game with one mine
drawn at `(1,1)`. -/
theorem C6_placement_exact_count_witness :
    ∃ s1, newGameState 2 2 1 (fun _ => (1, 1)) 3 = some s1 ∧
      mineCount s1 = 1 := by
  cases hn : newGameState 2 2 1 (fun _ => (1, 1)) 3 with
  | none => exact absurd hn (by decide)
  | some s1 =>
    exact ⟨s1, rfl, C6_placement_exact_count 2 2 1 _ 3 s1 hn⟩

theorem listGet?_map (f : α → β) :
    ∀ (i : Nat) (l : List α), listGet? (l.map f) i = (listGet? l i).map f := by
  intro i l
  induction l generalizing i with
  | nil => cases i <;> rfl
  | cons a t ih =>
    cases i with
    | zero => rfl
    | succ n => simpa [listGet?] using ih n

theorem getCell_revealMines (s : GameState) (y x : Nat) :
    getCell (revealMines s) y x =
      (getCell s y x).map fun c => if c.isMine then c.revealCell else c := by
  unfold getCell revealMines
  dsimp only
  cases hrow : listGet? s.cells y with
  | none => simp [listGet?_map, hrow]
  | some row => simp [listGet?_map, hrow]

theorem sumBy_map (g : α → β) (q : β → Nat) (l : List α) :
    sumBy q (l.map g) = sumBy (fun a => q (g a)) l := by
  induction l with
  | nil => rfl
  | cons a t ih => simp only [List.map_cons, sumBy_cons, ih]

theorem sumBy_mono (q1 q2 : α → Nat) (l : List α)
    (h : ∀ a ∈ l, q1 a ≤ q2 a) : sumBy q1 l ≤ sumBy q2 l := by
  induction l with
  | nil => exact le_refl _
  | cons a t ih =>
    simp only [sumBy_cons]
    have h1 := h a (List.mem_cons_self a t)
    have h2 := ih fun b hb => h b (List.mem_cons_of_mem a hb)
    omega

theorem sumBy_lt_of_mem (q1 q2 : α → Nat) (l : List α) (a : α)
    (ha : a ∈ l) (h : ∀ b ∈ l, q1 b ≤ q2 b) (hlt : q1 a < q2 a) :
    sumBy q1 l < sumBy q2 l := by
  induction l with
  | nil => cases ha
  | cons b t ih =>
    simp only [sumBy_cons]
    rcases List.mem_cons.mp ha with hab | hat
    · have h2 := sumBy_mono q1 q2 t fun d hd => h d (List.mem_cons_of_mem b hd)
      rw [hab] at hlt
      omega
    · have h1 := h b (List.mem_cons_self b t)
      have h2 := ih hat fun d hd => h d (List.mem_cons_of_mem b hd)
      omega

theorem sumBy_le_const (q : α → Nat) (k : Nat) (l : List α)
    (h : ∀ a ∈ l, q a ≤ k) : sumBy q l ≤ l.length * k := by
  induction l with
  | nil => simp [sumBy]
  | cons a t ih =>
    simp only [sumBy_cons, List.length_cons]
    have h1 := h a (List.mem_cons_self a t)
    have h2 := ih fun b hb => h b (List.mem_cons_of_mem a hb)
    have : (t.length + 1) * k = t.length * k + k := by ring
    omega

theorem unrev_applyReveal {s : GameState} {y x : Nat} {c : Cell}
    (hg : getCell s y x = some c) (n : Nat) :
    unrevealedCount (applyReveal s y x n) + unrevW c = unrevealedCount s := by
  obtain ⟨row, hrow, hcol⟩ := getCell_eq_some hg
  have hinner := sumBy_listModify_eq unrevW
    (fun c => { c with value := some n, isReveal := true }) x row c hcol
  have houter := sumBy_listModify_eq (fun r => sumBy unrevW r)
    (listModify (fun c => { c with value := some n, isReveal := true }) x)
    y s.cells row hrow
  have hfc : unrevW { c with value := some n, isReveal := true } = 0 := rfl
  rw [hfc] at hinner
  dsimp only at houter
  unfold unrevealedCount applyReveal modifyCell
  dsimp only
  omega

theorem unrev_revealMines_le (s : GameState) :
    unrevealedCount (revealMines s) ≤ unrevealedCount s := by
  unfold unrevealedCount revealMines
  dsimp only
  simp only [sumBy_map]
  apply sumBy_mono
  intro row _
  apply sumBy_mono
  intro c _
  by_cases hm : c.isMine <;> simp [hm, unrevW, Cell.revealCell]

theorem unrev_revealMines_lt {s : GameState} {y x : Nat} {c : Cell}
    (hg : getCell s y x = some c) (hm : c.isMine = true)
    (hr : c.isReveal = false) :
    unrevealedCount (revealMines s) < unrevealedCount s := by
  obtain ⟨row, hrow, hcol⟩ := getCell_eq_some hg
  have hrowmem : row ∈ s.cells := listGet?_mem hrow
  have hcmem : c ∈ row := listGet?_mem hcol
  unfold unrevealedCount revealMines
  dsimp only
  simp only [sumBy_map]
  apply sumBy_lt_of_mem _ _ _ row hrowmem
  · intro r _
    apply sumBy_mono
    intro d _
    by_cases hd : d.isMine <;> simp [hd, unrevW, Cell.revealCell]
  · apply sumBy_lt_of_mem _ _ _ c hcmem
    · intro d _
      by_cases hd : d.isMine <;> simp [hd, unrevW, Cell.revealCell]
    · simp [hm, hr, unrevW, Cell.revealCell]

theorem unrev_one_le {s : GameState} {y x : Nat} {c : Cell}
    (hg : getCell s y x = some c) (hr : c.isReveal = false) :
    1 ≤ unrevealedCount s := by
  obtain ⟨row, hrow, hcol⟩ := getCell_eq_some hg
  have hi := listGet?_le_sumBy unrevW x row c hcol
  have ho := listGet?_le_sumBy (fun r => sumBy unrevW r) y s.cells row hrow
  have hc1 : unrevW c = 1 := by simp [unrevW, hr]
  unfold unrevealedCount
  dsimp only at ho
  omega

theorem unrev_endGame_true (s : GameState) :
    unrevealedCount (endGame s true) = unrevealedCount s := rfl

theorem unrev_endGame_false_le (s : GameState) :
    unrevealedCount (endGame s false) ≤ unrevealedCount s :=
  unrev_revealMines_le { s with isGameFinished := true, outcome := some false }

theorem cascadeRun_total
    (click : GameState → Nat → Nat → Option GameState) (bound : Nat)
    (hclick : ∀ s y x c, getCell s y x = some c → c.isReveal = false →
      unrevealedCount s ≤ bound →
      ∃ s1, click s y x = some s1 ∧
        unrevealedCount s1 ≤ unrevealedCount s) :
    ∀ (l : List (Nat × Nat)) (s : GameState), unrevealedCount s ≤ bound →
      ∃ s1, cascadeRun click s l = some s1 ∧
        unrevealedCount s1 ≤ unrevealedCount s := by
  intro l
  induction l with
  | nil => exact fun s _ => ⟨s, rfl, le_refl _⟩
  | cons p rest ih =>
    intro s hs
    cases hg : getCell s p.1 p.2 with
    | none =>
      obtain ⟨s1, hrun, hle⟩ := ih s hs
      exact ⟨s1, by simp [cascadeRun, hg, hrun], hle⟩
    | some cell =>
      by_cases hrev : cell.isReveal = true
      · obtain ⟨s1, hrun, hle⟩ := ih s hs
        exact ⟨s1, by simp [cascadeRun, hg, hrev, hrun], hle⟩
      · have hrev' : cell.isReveal = false := by simpa using hrev
        obtain ⟨s1, hclick1, hle1⟩ := hclick s p.1 p.2 cell hg hrev' hs
        obtain ⟨s2, hrun, hle2⟩ := ih s1 (le_trans hle1 hs)
        exact ⟨s2, by simp [cascadeRun, hg, hrev', hclick1, hrun],
          le_trans hle2 hle1⟩

theorem clickCell_total_aux :
    ∀ (fuel : Nat) (s : GameState) (y x : Nat) (c : Cell),
      getCell s y x = some c → c.isReveal = false →
      unrevealedCount s ≤ fuel →
      ∃ s1, clickCell fuel s y x = some s1 ∧
        unrevealedCount s1 ≤ unrevealedCount s := by
  intro fuel
  induction fuel with
  | zero =>
    intro s y x c hg hr hle
    exact absurd hle (by have := unrev_one_le hg hr; omega)
  | succ f ih =>
    intro s y x c hg hr hle
    by_cases hguard : (s.isGameFinished || c.isFlagged) = true
    · exact ⟨s, by simp [clickCell, hg, hguard], le_refl _⟩
    · have hguard' : (s.isGameFinished || c.isFlagged) = false := by
        simpa using hguard
      have hU2 : ∀ n, unrevealedCount
          (applyReveal (if c.isMine then endGame s false else s) y x n) + 1 ≤
          unrevealedCount s := by
        intro n
        by_cases hm : c.isMine
        · have hgE : getCell
              { s with isGameFinished := true, outcome := some false }
              y x = some c := hg
          have hlt : unrevealedCount (endGame s false) < unrevealedCount s :=
            unrev_revealMines_lt hgE hm hr
          have hg1 : getCell (endGame s false) y x = some c.revealCell := by
            have := getCell_revealMines
              { s with isGameFinished := true, outcome := some false } y x
            rw [show endGame s false = revealMines
              { s with isGameFinished := true, outcome := some false } from rfl,
              this, hgE]
            simp [hm]
          have happ := unrev_applyReveal hg1 n
          have h0 : unrevW c.revealCell = 0 := rfl
          rw [h0] at happ
          simp only [hm, if_true]
          omega
        · have hm' : c.isMine = false := by simpa using hm
          have happ := unrev_applyReveal hg n
          have h1 : unrevW c = 1 := by simp [unrevW, hr]
          rw [h1] at happ
          simp only [hm', Bool.false_eq_true, if_false]
          omega
      have hstep : ∀ s3o,
          (if minesAround (if c.isMine then endGame s false else s) c.y c.x == 0
           then cascadeRun (fun a b d => clickCell f a b d)
             (applyReveal (if c.isMine then endGame s false else s) y x
               (minesAround (if c.isMine then endGame s false else s) c.y c.x))
             (neighborhood (if c.isMine then endGame s false else s).rows
               (if c.isMine then endGame s false else s).cols c.y c.x)
           else some (applyReveal (if c.isMine then endGame s false else s) y x
             (minesAround (if c.isMine then endGame s false else s) c.y c.x)))
            = s3o →
          clickCell (f+1) s y x =
            (match s3o with
             | none => none
             | some s3 =>
               some (if s3.revealedCells == s3.cellsToReveal &&
                     !s3.isGameFinished then endGame s3 true else s3)) := by
        intro s3o ho
        rw [clickCell]
        simp only [hg, hguard', Bool.false_eq_true, if_false]
        rw [ho]
      by_cases hn : minesAround (if c.isMine then endGame s false else s)
          c.y c.x == 0
      · obtain ⟨s3, hrun, hle3⟩ := cascadeRun_total
          (fun a b d => clickCell f a b d) f
          (fun s' y' x' c' hg' hr' hle' => ih s' y' x' c' hg' hr' hle')
          (neighborhood (if c.isMine then endGame s false else s).rows
            (if c.isMine then endGame s false else s).cols c.y c.x)
          (applyReveal (if c.isMine then endGame s false else s) y x
            (minesAround (if c.isMine then endGame s false else s) c.y c.x))
          (by have := hU2 (minesAround
            (if c.isMine then endGame s false else s) c.y c.x); omega)
        have heq := hstep (some s3) (by rw [if_pos hn]; exact hrun)
        by_cases hwin : (s3.revealedCells == s3.cellsToReveal &&
            !s3.isGameFinished) = true
        · refine ⟨endGame s3 true, ?_, ?_⟩
          · rw [heq]; simp [hwin]
          · rw [unrev_endGame_true]
            have := hU2 (minesAround
              (if c.isMine then endGame s false else s) c.y c.x)
            omega
        · refine ⟨s3, ?_, ?_⟩
          · rw [heq]
            simp only [Bool.not_eq_true] at hwin
            simp [hwin]
          · have := hU2 (minesAround
              (if c.isMine then endGame s false else s) c.y c.x)
            omega
      · have heq := hstep (some (applyReveal
          (if c.isMine then endGame s false else s) y x
          (minesAround (if c.isMine then endGame s false else s) c.y c.x)))
          (by rw [if_neg hn])
        set S2 := applyReveal (if c.isMine then endGame s false else s) y x
          (minesAround (if c.isMine then endGame s false else s) c.y c.x)
          with hS2
        by_cases hwin : (S2.revealedCells == S2.cellsToReveal &&
            !S2.isGameFinished) = true
        · refine ⟨endGame S2 true, ?_, ?_⟩
          · rw [heq]; simp [hwin]
          · rw [unrev_endGame_true]
            have h2 := hU2 (minesAround
              (if c.isMine then endGame s false else s) c.y c.x)
            rw [← hS2] at h2
            omega
        · refine ⟨S2, ?_, ?_⟩
          · rw [heq]
            simp only [Bool.not_eq_true] at hwin
            simp [hwin]
          · have h2 := hU2 (minesAround
              (if c.isMine then endGame s false else s) c.y c.x)
            rw [← hS2] at h2
            omega

theorem cellsShape_spec {s : GameState} (h : cellsShapeB s = true) :
    s.cells.length = s.rows ∧ ∀ row ∈ s.cells, row.length = s.cols := by
  simp only [cellsShapeB, Bool.and_eq_true, beq_iff_eq, List.all_eq_true] at h
  exact ⟨h.1, fun row hr => h.2 row hr⟩

theorem clickCell_of_finished (fuel : Nat) (s : GameState) (y x : Nat)
    (h : s.isGameFinished = true) :
    clickCell fuel s y x = none ∨ clickCell fuel s y x = some s := by
  cases fuel with
  | zero => exact Or.inl rfl
  | succ f =>
    cases hg : getCell s y x with
    | none => exact Or.inr (by simp [clickCell, hg])
    | some c => exact Or.inr (by simp [clickCell, hg, h])

/-- C8.  Once `#isGameFinished` holds, every reveal request
(`#handleCellClick`, whose `#clickCell` returns at its first guard) and
every flag request (`#handleCellContextMenu`, whose
`cell.isReveal || #isGameFinished` guard fires) returns the state
untouched: no cell and no counter changes after the session is
finished, whatever the outcome was. -/
theorem C8_finished_requests_noop (fuel : Nat) (s : GameState)
    (y x u v : Int) (h : s.isGameFinished = true) :
    (handleCellClick fuel s y x).2 = s ∧
    (handleCellContextMenu s u v).2 = s := by
  constructor
  · unfold handleCellClick
    cases hl : lookupCellI s y x with
    | none => rfl
    | some oc =>
      cases oc with
      | none => simp [h]
      | some c =>
        rcases clickCell_of_finished fuel s y.toNat x.toNat h with hc | hc <;>
          simp [hc]
  · unfold handleCellContextMenu
    cases hl : lookupCellI s u v with
    | none => rfl
    | some oc =>
      cases oc with
      | none => rfl
      | some c => simp [h]

/-- C10.  A reveal or flag request whose coordinates fall outside
`[0,rows) x [0,cols)` never touches the state: the cell lookup of the
handler yields `undefined` (here: a failed lookup), and the handler
either throws before mutating anything (`TypeError` on the property
read, recorded by the Boolean) or falls into the finished guard — in
every case the returned state equals the input state. -/
theorem C10_out_of_bounds_noop (fuel : Nat) (s : GameState) (y x : Int)
    (hs : cellsShapeB s = true)
    (h : y < 0 ∨ (s.rows : Int) ≤ y ∨ x < 0 ∨ (s.cols : Int) ≤ x) :
    (handleCellClick fuel s y x).2 = s ∧
    (handleCellContextMenu s y x).2 = s := by
  have hshape := cellsShape_spec hs
  have hcases : lookupCellI s y x = none ∨ lookupCellI s y x = some none := by
    rcases h with h | h | h | h
    · exact Or.inl (by simp [lookupCellI, lookupRow, h])
    · left
      have hnone : listGet? s.cells y.toNat = none := by
        have h1 := hshape.1
        rw [listGet?_eq_none_iff]
        omega
      by_cases hy : y < 0
      · simp [lookupCellI, lookupRow, hy]
      · simp [lookupCellI, lookupRow, hy, hnone]
    · cases hrow : lookupRow s y with
      | none => exact Or.inl (by simp [lookupCellI, hrow])
      | some row => exact Or.inr (by simp [lookupCellI, hrow, h])
    · cases hrow : lookupRow s y with
      | none => exact Or.inl (by simp [lookupCellI, hrow])
      | some row =>
        right
        have hmem : row ∈ s.cells := by
          have : listGet? s.cells y.toNat = some row := by
            by_cases hy : y < 0
            · simp [lookupRow, hy] at hrow
            · simpa [lookupRow, hy] using hrow
          exact listGet?_mem this
        have hlen : row.length = s.cols := hshape.2 row hmem
        have hxnone : listGet? row x.toNat = none := by
          rw [listGet?_eq_none_iff]
          omega
        by_cases hx : x < 0
        · simp [lookupCellI, hrow, hx]
        · simp [lookupCellI, hrow, hx, hxnone]
  rcases hcases with hc | hc
  · exact ⟨by simp [handleCellClick, hc], by simp [handleCellContextMenu, hc]⟩
  · constructor
    · simp only [handleCellClick, hc]
      split <;> rfl
    · simp [handleCellContextMenu, hc]

theorem lookupCellI_getCell {s : GameState} {y x : Int} {c : Cell}
    (h : lookupCellI s y x = some (some c)) :
    getCell s y.toNat x.toNat = some c := by
  cases hrow : lookupRow s y with
  | none => simp [lookupCellI, hrow] at h
  | some row =>
    rw [lookupCellI, hrow] at h
    simp only [Option.map, Option.some.injEq] at h
    by_cases hx : x < 0
    · rw [if_pos hx] at h
      exact absurd h (by simp)
    · rw [if_neg hx] at h
      have hy : ¬y < 0 := by
        by_contra hy
        simp [lookupRow, hy] at hrow
      rw [lookupRow, if_neg hy] at hrow
      simp [getCell, hrow, h]

theorem placeMinesAux_meta (stream : Nat → Nat × Nat) :
    ∀ (fuel k m : Nat) (s s1 : GameState),
      placeMinesAux stream fuel k m s = some s1 →
      s1.rows = s.rows ∧ s1.cols = s.cols ∧ s1.mines = s.mines ∧
      s1.counterValue = s.counterValue ∧
      s1.cellsToReveal = s.cellsToReveal ∧
      s1.revealedCells = s.revealedCells ∧
      s1.isGameFinished = s.isGameFinished ∧
      s1.outcome = s.outcome := by
  intro fuel
  induction fuel with
  | zero =>
    intro k m s s1 h
    cases m with
    | zero =>
      simp only [placeMinesAux, Option.some.injEq] at h
      subst h; exact ⟨rfl, rfl, rfl, rfl, rfl, rfl, rfl, rfl⟩
    | succ m => simp [placeMinesAux] at h
  | succ f ih =>
    intro k m s s1 h
    cases m with
    | zero =>
      simp only [placeMinesAux, Option.some.injEq] at h
      subst h; exact ⟨rfl, rfl, rfl, rfl, rfl, rfl, rfl, rfl⟩
    | succ m =>
      rw [placeMinesAux] at h
      cases hg : getCell s (stream k).1 (stream k).2 with
      | none => simp [hg] at h
      | some cell =>
        simp only [hg] at h
        by_cases hm : cell.isMine
        · rw [if_pos hm] at h
          exact ih (k+1) (m+1) s s1 h
        · rw [if_neg hm] at h
          have := ih (k+1) m _ s1 h
          simpa [modifyCell] using this

/-- C9.  `#newGame` sets the counter to the hazard count
(`this.#counter.setValue(this.#numberOfMines)`); in an active session a
flag request on a revealed cell is a no-op; unflagging a flagged cell
increments the remaining-flag counter by one and clears the flag;
flagging is impossible while the counter is 0 (`!!this.#counter.value`
guard, the request is then a no-op); otherwise flagging decrements the
counter by one and sets the flag. -/
theorem C9_flag_counter_spec :
    (∀ rows cols mines stream fuel s0,
      newGameState rows cols mines stream fuel = some s0 →
      s0.counterValue = mines) ∧
    (∀ s y x c, lookupCellI s y x = some (some c) → c.isReveal = true →
      handleCellContextMenu s y x = (false, s)) ∧
    (∀ s y x c, lookupCellI s y x = some (some c) →
      s.isGameFinished = false → c.isReveal = false → c.isFlagged = true →
      (handleCellContextMenu s y x).2.counterValue = s.counterValue + 1 ∧
      (getCell (handleCellContextMenu s y x).2 y.toNat x.toNat).map
        (fun d => d.isFlagged) = some false) ∧
    (∀ s y x c, lookupCellI s y x = some (some c) →
      s.isGameFinished = false → c.isReveal = false → c.isFlagged = false →
      s.counterValue = 0 → handleCellContextMenu s y x = (false, s)) ∧
    (∀ s y x c, lookupCellI s y x = some (some c) →
      s.isGameFinished = false → c.isReveal = false → c.isFlagged = false →
      s.counterValue ≠ 0 →
      (handleCellContextMenu s y x).2.counterValue = s.counterValue - 1 ∧
      (getCell (handleCellContextMenu s y x).2 y.toNat x.toNat).map
        (fun d => d.isFlagged) = some true) := by
  refine ⟨?_, ?_, ?_, ?_, ?_⟩
  · intro rows cols mines stream fuel s0 h
    exact (placeMinesAux_meta stream fuel 0 mines _ s0 h).2.2.2.1
  · intro s y x c h hrev
    simp [handleCellContextMenu, h, hrev]
  · intro s y x c h hfin hrev hflag
    have hcell := lookupCellI_getCell h
    refine ⟨?_, ?_⟩
    · simp [handleCellContextMenu, h, hfin, hrev, hflag]
    · simp only [handleCellContextMenu, h, hfin, hrev, hflag]
      have : getCell { modifyCell s y.toNat x.toNat Cell.toggleFlag with
          counterValue := s.counterValue + 1 } y.toNat x.toNat =
          (getCell s y.toNat x.toNat).map Cell.toggleFlag := by
        simpa [getCell] using getCell_modifyCell_self s y.toNat x.toNat _
      simp [this, hcell, Cell.toggleFlag, hrev, hflag]
  · intro s y x c h hfin hrev hflag hcount
    simp [handleCellContextMenu, h, hfin, hrev, hflag, hcount]
  · intro s y x c h hfin hrev hflag hcount
    have hcell := lookupCellI_getCell h
    refine ⟨?_, ?_⟩
    · simp [handleCellContextMenu, h, hfin, hrev, hflag, hcount]
    · simp only [handleCellContextMenu, h, hfin, hrev, hflag]
      have : getCell { modifyCell s y.toNat x.toNat Cell.toggleFlag with
          counterValue := s.counterValue - 1 } y.toNat x.toNat =
          (getCell s y.toNat x.toNat).map Cell.toggleFlag := by
        simpa [getCell] using getCell_modifyCell_self s y.toNat x.toNat _
      simp [this, hcell, Cell.toggleFlag, hrev, hflag, hcount]

theorem clickCell_succ_eq (f : Nat) (s : GameState) (y x : Nat) (c : Cell)
    (hg : getCell s y x = some c)
    (hguard : (s.isGameFinished || c.isFlagged) = false) :
    clickCell (f+1) s y x =
      (match (if minesAround (if c.isMine then endGame s false else s)
                c.y c.x == 0
              then cascadeRun (fun a b d => clickCell f a b d)
                (applyReveal (if c.isMine then endGame s false else s) y x
                  (minesAround (if c.isMine then endGame s false else s)
                    c.y c.x))
                (neighborhood (if c.isMine then endGame s false else s).rows
                  (if c.isMine then endGame s false else s).cols c.y c.x)
              else some (applyReveal
                (if c.isMine then endGame s false else s) y x
                (minesAround (if c.isMine then endGame s false else s)
                  c.y c.x))) with
       | none => none
       | some s3 =>
         some (if s3.revealedCells == s3.cellsToReveal && !s3.isGameFinished
               then endGame s3 true else s3)) := by
  rw [clickCell]
  simp only [hg, hguard, Bool.false_eq_true, if_false]

theorem unrev_apply_if_le (s : GameState) (y x : Nat) (c : Cell)
    (hg : getCell s y x = some c) (n : Nat) :
    unrevealedCount
      (applyReveal (if c.isMine then endGame s false else s) y x n) ≤
      unrevealedCount s := by
  by_cases hm : c.isMine
  · have hgE : getCell
        { s with isGameFinished := true, outcome := some false }
        y x = some c := hg
    have hg1 : getCell (endGame s false) y x =
        some (if c.isMine then c.revealCell else c) := by
      rw [show endGame s false = revealMines
        { s with isGameFinished := true, outcome := some false } from rfl,
        getCell_revealMines, hgE]
      rfl
    have happ := unrev_applyReveal hg1 n
    have hle1 := unrev_endGame_false_le s
    simp only [hm, if_true]
    omega
  · have hm' : c.isMine = false := by simpa using hm
    have happ := unrev_applyReveal hg n
    simp only [hm', Bool.false_eq_true, if_false]
    omega

theorem mem_neighborhood_self (rows cols y x : Nat)
    (hy : y < rows) (hx : x < cols) :
    (y, x) ∈ neighborhood rows cols y x := by
  unfold neighborhood clampRange
  rw [List.mem_flatMap]
  refine ⟨y, ?_, ?_⟩
  · rw [List.mem_range'_1]
    omega
  · rw [List.mem_map]
    refine ⟨x, ?_, rfl⟩
    rw [List.mem_range'_1]
    omega

theorem unrev_le_total {s : GameState} (hs : cellsShapeB s = true) :
    unrevealedCount s ≤ s.rows * s.cols := by
  have hshape := cellsShape_spec hs
  unfold unrevealedCount
  have hrow : ∀ row ∈ s.cells, sumBy unrevW row ≤ s.cols := by
    intro row hr
    have h1 := sumBy_le_const unrevW 1 row fun c _ => by
      by_cases h : c.isReveal <;> simp [unrevW, h]
    have h2 := hshape.2 row hr
    omega
  have h2 := sumBy_le_const (fun row => sumBy unrevW row) s.cols s.cells hrow
  have h3 := hshape.1
  have : s.cells.length * s.cols = s.rows * s.cols := by rw [h3]
  omega

theorem getCell_applyReveal_self (s : GameState) (y x n : Nat) :
    getCell (applyReveal s y x n) y x =
      (getCell s y x).map fun c =>
        { c with value := some n, isReveal := true } := by
  exact getCell_modifyCell_self s y x _

/-- C7.  The reveal recursion always terminates within `rows*cols`
cell visits: the cascade recurses only into cells that are not yet
revealed, and every visit marks its cell revealed before recursing, so
the number of unrevealed cells strictly decreases along the recursion.
Formally, running the fuelled embedding of `#clickCell` with fuel
`rows*cols + 1` (one visit per board cell, plus the initial request)
never exhausts the fuel, on every well-formed board. -/
theorem C7_reveal_cascade_terminates (s : GameState) (y x : Nat)
    (hs : cellsShapeB s = true) :
    (clickCell (s.rows * s.cols + 1) s y x).isSome = true := by
  have hU := unrev_le_total hs
  cases hg : getCell s y x with
  | none =>
    rw [clickCell]
    simp [hg]
  | some c =>
    by_cases hguard : (s.isGameFinished || c.isFlagged) = true
    · rw [clickCell]
      simp [hg, hguard]
    · have hguard' : (s.isGameFinished || c.isFlagged) = false := by
        simpa using hguard
      rw [clickCell_succ_eq (s.rows * s.cols) s y x c hg hguard']
      by_cases hn : minesAround (if c.isMine then endGame s false else s)
          c.y c.x == 0
      · obtain ⟨s3, hrun, _⟩ := cascadeRun_total
          (fun a b d => clickCell (s.rows * s.cols) a b d) (s.rows * s.cols)
          (fun s' y' x' c' hg' hr' hle' =>
            clickCell_total_aux (s.rows * s.cols) s' y' x' c' hg' hr' hle')
          (neighborhood (if c.isMine then endGame s false else s).rows
            (if c.isMine then endGame s false else s).cols c.y c.x)
          (applyReveal (if c.isMine then endGame s false else s) y x
            (minesAround (if c.isMine then endGame s false else s) c.y c.x))
          (le_trans (unrev_apply_if_le s y x c hg _) hU)
        rw [if_pos hn, hrun]
        rfl
      · rw [if_neg hn]
        rfl

/-- The termination theorem instantiated on a concrete 1x2 board. -/
theorem C7_reveal_cascade_terminates_witness :
    (clickCell (demoState.rows * demoState.cols + 1) demoState 0 1).isSome
      = true :=
  C7_reveal_cascade_terminates demoState 0 1 (by decide)

/-- C4, amended.  A reveal request in an active session on an
**unflagged** hazard cell (in bounds, coordinates stored consistently)
always ends the session: `#endGame(false)` fires, the outcome is a
loss, and the triggering hazard cell itself is revealed by the
`#setCellValue` call that still follows; the win branch cannot also
fire in the same action because `#isGameFinished` is already set when
the `!this.#isGameFinished` conjunct of the win check is evaluated. -/
theorem C4_unflagged_hazard_loss (fuel : Nat) (s : GameState) (y x : Nat)
    (c : Cell) (hg : getCell s y x = some c)
    (hfin : s.isGameFinished = false) (hflag : c.isFlagged = false)
    (hm : c.isMine = true) (hcy : c.y = y) (hcx : c.x = x)
    (hy : y < s.rows) (hx : x < s.cols) :
    ∃ s1, clickCell (fuel+1) s y x = some s1 ∧
      s1.isGameFinished = true ∧ s1.outcome = some false ∧
      (getCell s1 y x).map (fun d => d.isReveal) = some true := by
  have hguard : (s.isGameFinished || c.isFlagged) = false := by
    rw [hfin, hflag]
    rfl
  rw [clickCell_succ_eq fuel s y x c hg hguard]
  simp only [hm, if_true]
  have hgE : getCell
      { s with isGameFinished := true, outcome := some false }
      y x = some c := hg
  have hg1 : getCell (endGame s false) y x = some c.revealCell := by
    rw [show endGame s false = revealMines
      { s with isGameFinished := true, outcome := some false } from rfl,
      getCell_revealMines, hgE]
    simp [hm]
  have hself : (y, x) ∈ neighborhood (endGame s false).rows
      (endGame s false).cols c.y c.x := by
    rw [hcy, hcx]
    exact mem_neighborhood_self s.rows s.cols y x hy hx
  have hminepos : 0 < minesAround (endGame s false) c.y c.x := by
    unfold minesAround
    rw [List.countP_pos_iff]
    refine ⟨(y, x), hself, ?_⟩
    simp [isMineAt, hg1, Cell.revealCell, hm]
  have hn : ¬(minesAround (endGame s false) c.y c.x == 0) = true := by
    simp only [beq_iff_eq]
    omega
  rw [if_neg hn]
  have hfin2 : (applyReveal (endGame s false) y x
      (minesAround (endGame s false) c.y c.x)).isGameFinished = true := rfl
  have hwin : (((applyReveal (endGame s false) y x
      (minesAround (endGame s false) c.y c.x)).revealedCells ==
      (applyReveal (endGame s false) y x
        (minesAround (endGame s false) c.y c.x)).cellsToReveal) &&
      !(applyReveal (endGame s false) y x
        (minesAround (endGame s false) c.y c.x)).isGameFinished) = false := by
    rw [hfin2]
    simp
  refine ⟨applyReveal (endGame s false) y x
    (minesAround (endGame s false) c.y c.x), ?_, hfin2, rfl, ?_⟩
  · simp only [hwin, Bool.false_eq_true, if_false]
  · rw [getCell_applyReveal_self, hg1]
    rfl

theorem preserves_refl (s : GameState) : Preserves s s :=
  ⟨rfl, rfl, rfl, fun _ _ => rfl, fun _ _ => rfl, fun _ _ => rfl,
   fun row h => ⟨row, h, rfl⟩⟩

theorem preserves_trans {s s1 s2 : GameState}
    (h1 : Preserves s s1) (h2 : Preserves s1 s2) : Preserves s s2 := by
  obtain ⟨a1, b1, c1, d1, e1, f1, g1⟩ := h1
  obtain ⟨a2, b2, c2, d2, e2, f2, g2⟩ := h2
  refine ⟨a2.trans a1, b2.trans b1, c2.trans c1,
    fun y x => (d2 y x).trans (d1 y x),
    fun y x => (e2 y x).trans (e1 y x),
    fun y x => (f2 y x).trans (f1 y x), ?_⟩
  intro row hrow
  obtain ⟨r1, hr1, hl1⟩ := g2 row hrow
  obtain ⟨r0, hr0, hl0⟩ := g1 r1 hr1
  exact ⟨r0, hr0, hl1.trans hl0⟩

theorem isMineAt_of_preserves {s s1 : GameState} (h : Preserves s s1)
    (y x : Nat) : isMineAt s1 y x = isMineAt s y x := by
  have hm := h.2.2.2.1 y x
  unfold isMineAt
  cases hg : getCell s y x with
  | none =>
    rw [hg] at hm
    cases hg1 : getCell s1 y x with
    | none => rfl
    | some c1 => rw [hg1] at hm; exact absurd hm (by simp)
  | some c =>
    rw [hg] at hm
    cases hg1 : getCell s1 y x with
    | none => rw [hg1] at hm; exact absurd hm (by simp)
    | some c1 =>
      rw [hg1] at hm
      simpa using hm

theorem minesAround_of_preserves {s s1 : GameState} (h : Preserves s s1)
    (y x : Nat) : minesAround s1 y x = minesAround s y x := by
  unfold minesAround
  rw [h.1, h.2.1]
  apply List.countP_congr
  intro p _
  rw [isMineAt_of_preserves h p.1 p.2]

theorem cellsShapeB_of_preserves {s s1 : GameState} (h : Preserves s s1)
    (hs : cellsShapeB s = true) : cellsShapeB s1 = true := by
  have hspec := cellsShape_spec hs
  simp only [cellsShapeB, Bool.and_eq_true, beq_iff_eq, List.all_eq_true]
  constructor
  · rw [h.2.2.1, h.1, hspec.1]
  · intro row hrow
    obtain ⟨r0, hr0, hl⟩ := h.2.2.2.2.2.2 row hrow
    rw [h.2.1, hl]
    exact hspec.2 r0 hr0

theorem wfcoords_of_preserves {s s1 : GameState} (h : Preserves s s1)
    (hw : WFcoords s) : WFcoords s1 := by
  intro y x c1 hg1
  have hco := h.2.2.2.2.1 y x
  rw [hg1] at hco
  cases hg : getCell s y x with
  | none => rw [hg] at hco; exact absurd hco (by simp)
  | some c =>
    rw [hg] at hco
    simp only [Option.map, Option.some.injEq, Prod.mk.injEq] at hco
    obtain ⟨hcy, hcx⟩ := hw y x c hg
    omega

theorem listModify_mem {g : α → α} :
    ∀ (i : Nat) (l : List α) (a : α), a ∈ listModify g i l →
      ∃ b ∈ l, a = b ∨ a = g b := by
  intro i l
  induction l generalizing i with
  | nil => intro a ha; cases i <;> cases ha
  | cons b t ih =>
    intro a ha
    cases i with
    | zero =>
      rcases List.mem_cons.mp ha with h | h
      · exact ⟨b, List.mem_cons_self b t, Or.inr h⟩
      · exact ⟨a, List.mem_cons_of_mem b h, Or.inl rfl⟩
    | succ n =>
      rcases List.mem_cons.mp ha with h | h
      · exact ⟨b, List.mem_cons_self b t, Or.inl h⟩
      · obtain ⟨b1, hb1, hor⟩ := ih n a h
        exact ⟨b1, List.mem_cons_of_mem b hb1, hor⟩

theorem preserves_modifyCell (s : GameState) (y x : Nat) (f : Cell → Cell)
    (hmine : ∀ c, (f c).isMine = c.isMine)
    (hco : ∀ c, (f c).x = c.x ∧ (f c).y = c.y) :
    Preserves s (modifyCell s y x f) := by
  refine ⟨rfl, rfl, ?_, ?_, ?_, ?_, ?_⟩
  · exact listModify_length _ _ _
  · intro y1 x1
    by_cases hcase : y = y1 ∧ x = x1
    · obtain ⟨hy, hx⟩ := hcase
      subst hy hx
      rw [getCell_modifyCell_self]
      cases getCell s y x with
      | none => rfl
      | some c => simp [hmine]
    · rw [getCell_modifyCell_ne s y x y1 x1 f (by tauto)]
  · intro y1 x1
    by_cases hcase : y = y1 ∧ x = x1
    · obtain ⟨hy, hx⟩ := hcase
      subst hy hx
      rw [getCell_modifyCell_self]
      cases getCell s y x with
      | none => rfl
      | some c => simp [(hco c).1, (hco c).2]
    · rw [getCell_modifyCell_ne s y x y1 x1 f (by tauto)]
  · intro y1 x1
    by_cases hcase : y = y1 ∧ x = x1
    · obtain ⟨hy, hx⟩ := hcase
      subst hy hx
      rw [getCell_modifyCell_self]
      cases getCell s y x with
      | none => rfl
      | some c => rfl
    · rw [getCell_modifyCell_ne s y x y1 x1 f (by tauto)]
  · intro row hrow
    obtain ⟨b, hb, hor⟩ := listModify_mem y s.cells row hrow
    rcases hor with h | h
    · exact ⟨b, hb, by rw [h]⟩
    · exact ⟨b, hb, by rw [h, listModify_length]⟩

theorem preserves_revealMines (s : GameState) :
    Preserves s (revealMines s) := by
  refine ⟨rfl, rfl, ?_, ?_, ?_, ?_, ?_⟩
  · simp [revealMines]
  · intro y x
    rw [getCell_revealMines]
    cases getCell s y x with
    | none => rfl
    | some c => by_cases hm : c.isMine <;> simp [hm, Cell.revealCell]
  · intro y x
    rw [getCell_revealMines]
    cases getCell s y x with
    | none => rfl
    | some c => by_cases hm : c.isMine <;> simp [hm, Cell.revealCell]
  · intro y x
    rw [getCell_revealMines]
    cases getCell s y x with
    | none => rfl
    | some c => rfl
  · intro row hrow
    simp only [revealMines, List.mem_map] at hrow
    obtain ⟨r0, hr0, hmap⟩ := hrow
    exact ⟨r0, hr0, by rw [← hmap, List.length_map]⟩

theorem preserves_endGame (s : GameState) (b : Bool) :
    Preserves s (endGame s b) := by
  cases b
  · exact preserves_revealMines
      { s with isGameFinished := true, outcome := some false }
  · exact preserves_refl s

theorem preserves_applyReveal (s : GameState) (y x n : Nat) :
    Preserves s (applyReveal s y x n) :=
  preserves_modifyCell s y x _ (fun _ => rfl) (fun _ => ⟨rfl, rfl⟩)

theorem inv_mk {s s1 : GameState} (hp : Preserves s s1) (hi : Inv s)
    (hv : ValOK s1) : Inv s1 :=
  ⟨cellsShapeB_of_preserves hp hi.1, wfcoords_of_preserves hp hi.2.1, hv⟩

theorem valOK_endGame (s : GameState) (b : Bool) (h : ValOK s) :
    ValOK (endGame s b) := by
  cases b
  · intro y x c1 hg1 hm1 hr1
    have hEG : getCell (endGame s false) y x =
        (getCell s y x).map fun c => if c.isMine then c.revealCell else c :=
      getCell_revealMines
        { s with isGameFinished := true, outcome := some false } y x
    rw [hEG] at hg1
    cases hg : getCell s y x with
    | none => rw [hg] at hg1; exact absurd hg1 (by simp)
    | some c =>
      rw [hg] at hg1
      simp only [Option.map, Option.some.injEq] at hg1
      subst hg1
      by_cases hm : c.isMine
      · rw [if_pos hm] at hm1
        simp [Cell.revealCell, hm] at hm1
      · have hm' : c.isMine = false := by simpa using hm
        rw [if_neg hm] at hm1 hr1 ⊢
        rw [minesAround_of_preserves (preserves_endGame s false)]
        exact h y x c hg hm' hr1
  · intro y x c hg hm hr
    rw [minesAround_of_preserves (preserves_endGame s true)]
    exact h y x c hg hm hr

theorem valOK_applyReveal {s : GameState} {y x n : Nat}
    (hn : n = minesAround s y x) (h : ValOK s) :
    ValOK (applyReveal s y x n) := by
  intro y1 x1 c1 hg1 hm1 hr1
  have hMA := minesAround_of_preserves (preserves_applyReveal s y x n)
  by_cases hcase : y = y1 ∧ x = x1
  · obtain ⟨hy, hx⟩ := hcase
    subst hy hx
    rw [getCell_applyReveal_self] at hg1
    cases hg : getCell s y x with
    | none => rw [hg] at hg1; exact absurd hg1 (by simp)
    | some c =>
      rw [hg] at hg1
      simp only [Option.map, Option.some.injEq] at hg1
      subst hg1
      rw [hMA y x, ← hn]
  · have hne : getCell (applyReveal s y x n) y1 x1 = getCell s y1 x1 :=
      getCell_modifyCell_ne s y x y1 x1 _ (by tauto)
    rw [hne] at hg1
    rw [hMA y1 x1]
    exact h y1 x1 c1 hg1 hm1 hr1

theorem cascadeRun_inv
    (click : GameState → Nat → Nat → Option GameState)
    (hclick : ∀ s y x s1, click s y x = some s1 →
      Preserves s s1 ∧ (Inv s → Inv s1)) :
    ∀ (l : List (Nat × Nat)) (s s1 : GameState),
      cascadeRun click s l = some s1 →
      Preserves s s1 ∧ (Inv s → Inv s1) := by
  intro l
  induction l with
  | nil =>
    intro s s1 h
    simp only [cascadeRun, Option.some.injEq] at h
    subst h
    exact ⟨preserves_refl s, id⟩
  | cons p rest ih =>
    intro s s1 h
    rw [cascadeRun] at h
    cases hg : getCell s p.1 p.2 with
    | none =>
      simp only [hg] at h
      exact ih s s1 h
    | some cell =>
      simp only [hg] at h
      by_cases hr : cell.isReveal = true
      · simp only [hr, if_true] at h
        exact ih s s1 h
      · have hr' : cell.isReveal = false := by simpa using hr
        simp only [hr', Bool.false_eq_true, if_false] at h
        cases hc : click s p.1 p.2 with
        | none => simp [hc] at h
        | some s2 =>
          simp only [hc] at h
          obtain ⟨hp1, hi1⟩ := hclick s p.1 p.2 s2 hc
          obtain ⟨hp2, hi2⟩ := ih s2 s1 h
          exact ⟨preserves_trans hp1 hp2, fun hi => hi2 (hi1 hi)⟩

theorem clickCell_inv :
    ∀ (fuel : Nat) (s : GameState) (y x : Nat) (s1 : GameState),
      clickCell fuel s y x = some s1 →
      Preserves s s1 ∧ (Inv s → Inv s1) := by
  intro fuel
  induction fuel with
  | zero =>
    intro s y x s1 h
    exact absurd h (by simp [clickCell])
  | succ f ih =>
    intro s y x s1 h
    cases hg : getCell s y x with
    | none =>
      rw [clickCell] at h
      simp only [hg, Option.some.injEq] at h
      subst h
      exact ⟨preserves_refl s, id⟩
    | some c =>
      by_cases hguard : (s.isGameFinished || c.isFlagged) = true
      · rw [clickCell] at h
        simp only [hg, hguard, if_true, Option.some.injEq] at h
        subst h
        exact ⟨preserves_refl s, id⟩
      · have hguard' : (s.isGameFinished || c.isFlagged) = false := by
          simpa using hguard
        rw [clickCell_succ_eq f s y x c hg hguard'] at h
        have hpA : Preserves s (if c.isMine then endGame s false else s) := by
          by_cases hm : c.isMine
          · simp only [hm, if_true]
            exact preserves_endGame s false
          · have hm' : c.isMine = false := by simpa using hm
            simp only [hm', Bool.false_eq_true, if_false]
            exact preserves_refl s
        have hiA : Inv s → Inv (if c.isMine then endGame s false else s) := by
          intro hi
          by_cases hm : c.isMine
          · simp only [hm, if_true]
            exact inv_mk (preserves_endGame s false) hi
              (valOK_endGame s false hi.2.2)
          · have hm' : c.isMine = false := by simpa using hm
            simp only [hm', Bool.false_eq_true, if_false]
            exact hi
        have hp2 : Preserves s
            (applyReveal (if c.isMine then endGame s false else s) y x
              (minesAround (if c.isMine then endGame s false else s)
                c.y c.x)) :=
          preserves_trans hpA (preserves_applyReveal _ y x _)
        have hi2 : Inv s → Inv
            (applyReveal (if c.isMine then endGame s false else s) y x
              (minesAround (if c.isMine then endGame s false else s)
                c.y c.x)) := by
          intro hi
          obtain ⟨hcy, hcx⟩ := hi.2.1 y x c hg
          have hiA' := hiA hi
          refine inv_mk (preserves_applyReveal _ y x _) hiA'
            (valOK_applyReveal ?_ hiA'.2.2)
          rw [hcy, hcx]
        have hfinal : ∀ s3 : GameState,
            (if (s3.revealedCells == s3.cellsToReveal &&
              !s3.isGameFinished) = true then endGame s3 true else s3) = s1 →
            Preserves s3 s1 ∧ (Inv s3 → Inv s1) := by
          intro s3 h3
          by_cases hwin : (s3.revealedCells == s3.cellsToReveal &&
              !s3.isGameFinished) = true
          · rw [if_pos hwin] at h3
            subst h3
            exact ⟨preserves_endGame s3 true,
              fun hi => inv_mk (preserves_endGame s3 true) hi
                (valOK_endGame s3 true hi.2.2)⟩
          · rw [if_neg hwin] at h3
            subst h3
            exact ⟨preserves_refl s3, id⟩
        by_cases hn : minesAround (if c.isMine then endGame s false else s)
            c.y c.x == 0
        · rw [if_pos hn] at h
          cases hcas : cascadeRun (fun a b d => clickCell f a b d)
              (applyReveal (if c.isMine then endGame s false else s) y x
                (minesAround (if c.isMine then endGame s false else s)
                  c.y c.x))
              (neighborhood (if c.isMine then endGame s false else s).rows
                (if c.isMine then endGame s false else s).cols c.y c.x) with
          | none => rw [hcas] at h; simp at h
          | some s3 =>
            rw [hcas] at h
            simp only [Option.some.injEq] at h
            obtain ⟨hp3, hi3⟩ := cascadeRun_inv
              (fun a b d => clickCell f a b d)
              (fun s' y' x' s1' hcc => ih s' y' x' s1' hcc) _ _ _ hcas
            obtain ⟨hp4, hi4⟩ := hfinal s3 h
            exact ⟨preserves_trans hp2 (preserves_trans hp3 hp4),
              fun hi => hi4 (hi3 (hi2 hi))⟩
        · rw [if_neg hn] at h
          simp only [Option.some.injEq] at h
          obtain ⟨hp4, hi4⟩ := hfinal _ h
          exact ⟨preserves_trans hp2 hp4, fun hi => hi4 (hi2 hi)⟩

theorem listGet?_eq_getElem? : ∀ (l : List α) (i : Nat), listGet? l i = l[i]? := by
  intro l
  induction l with
  | nil => intro i; cases i <;> simp [listGet?]
  | cons a t ih =>
    intro i
    cases i with
    | zero => simp [listGet?]
    | succ n => simp [listGet?, ih]

theorem mkCells_getCell (rows cols y x : Nat) :
    ((listGet? (mkCells rows cols) y).bind fun row => listGet? row x) =
      if y < rows ∧ x < cols then
        some { x := x, y := y, isMine := false, isFlagged := false,
               isReveal := false, value := none }
      else none := by
  unfold mkCells
  rw [listGet?_eq_getElem?, List.getElem?_map]
  by_cases hy : y < rows
  · rw [List.getElem?_range hy]
    show (listGet? ((List.range cols).map fun col =>
      ({ x := col, y := y, isMine := false, isFlagged := false,
         isReveal := false, value := none } : Cell)) x) = _
    rw [listGet?_eq_getElem?, List.getElem?_map]
    by_cases hx : x < cols
    · rw [List.getElem?_range hx, if_pos ⟨hy, hx⟩]
      rfl
    · have hnone : (List.range cols)[x]? = none :=
        List.getElem?_eq_none_iff.mpr (by simpa using Nat.le_of_not_lt hx)
      rw [hnone, if_neg (by tauto)]
      rfl
  · have hnone : (List.range rows)[y]? = none :=
      List.getElem?_eq_none_iff.mpr (by simpa using Nat.le_of_not_lt hy)
    rw [hnone, if_neg (by tauto)]
    rfl

theorem listModify_all (p : α → Bool) (g : α → α)
    (hp : ∀ a, p (g a) = p a) :
    ∀ (i : Nat) (l : List α), (listModify g i l).all p = l.all p := by
  intro i l
  induction l generalizing i with
  | nil => cases i <;> rfl
  | cons a t ih =>
    cases i with
    | zero => simp [listModify, hp]
    | succ n => simp [listModify, ih n]

theorem cellsShapeB_modifyCell (s : GameState) (y x : Nat)
    (f : Cell → Cell) :
    cellsShapeB (modifyCell s y x f) = cellsShapeB s := by
  unfold cellsShapeB modifyCell
  dsimp only
  rw [listModify_length]
  congr 1
  exact listModify_all _ _ (fun row => by rw [listModify_length]) y s.cells

theorem wfcoords_modifyCell (s : GameState) (y x : Nat) (f : Cell → Cell)
    (hco : ∀ c, (f c).x = c.x ∧ (f c).y = c.y)
    (h : WFcoords s) : WFcoords (modifyCell s y x f) := by
  intro y1 x1 c1 hg1
  by_cases hcase : y = y1 ∧ x = x1
  · obtain ⟨hy, hx⟩ := hcase
    subst hy hx
    rw [getCell_modifyCell_self] at hg1
    cases hg : getCell s y x with
    | none => rw [hg] at hg1; exact absurd hg1 (by simp)
    | some c =>
      rw [hg] at hg1
      simp only [Option.map, Option.some.injEq] at hg1
      subst hg1
      have := h y x c hg
      have h1 := (hco c).1
      have h2 := (hco c).2
      omega
  · rw [getCell_modifyCell_ne s y x y1 x1 f (by tauto)] at hg1
    exact h y1 x1 c1 hg1

theorem allUnrev_modifyCell (s : GameState) (y x : Nat) (f : Cell → Cell)
    (hrev : ∀ c, (f c).isReveal = c.isReveal)
    (h : AllUnrev s) : AllUnrev (modifyCell s y x f) := by
  intro y1 x1 c1 hg1
  by_cases hcase : y = y1 ∧ x = x1
  · obtain ⟨hy, hx⟩ := hcase
    subst hy hx
    rw [getCell_modifyCell_self] at hg1
    cases hg : getCell s y x with
    | none => rw [hg] at hg1; exact absurd hg1 (by simp)
    | some c =>
      rw [hg] at hg1
      simp only [Option.map, Option.some.injEq] at hg1
      subst hg1
      rw [hrev c]
      exact h y x c hg
  · rw [getCell_modifyCell_ne s y x y1 x1 f (by tauto)] at hg1
    exact h y1 x1 c1 hg1

theorem placeMinesAux_inv (stream : Nat → Nat × Nat) :
    ∀ (fuel k m : Nat) (s s1 : GameState),
      placeMinesAux stream fuel k m s = some s1 →
      (cellsShapeB s = true → cellsShapeB s1 = true) ∧
      (WFcoords s → WFcoords s1) ∧ (AllUnrev s → AllUnrev s1) := by
  intro fuel
  induction fuel with
  | zero =>
    intro k m s s1 h
    cases m with
    | zero =>
      simp only [placeMinesAux, Option.some.injEq] at h
      subst h
      exact ⟨id, id, id⟩
    | succ m => simp [placeMinesAux] at h
  | succ f ih =>
    intro k m s s1 h
    cases m with
    | zero =>
      simp only [placeMinesAux, Option.some.injEq] at h
      subst h
      exact ⟨id, id, id⟩
    | succ m =>
      rw [placeMinesAux] at h
      cases hg : getCell s (stream k).1 (stream k).2 with
      | none => simp [hg] at h
      | some cell =>
        simp only [hg] at h
        by_cases hm : cell.isMine
        · rw [if_pos hm] at h
          exact ih (k+1) (m+1) s s1 h
        · rw [if_neg hm] at h
          obtain ⟨hsh, hco, hun⟩ := ih (k+1) m _ s1 h
          refine ⟨?_, ?_, ?_⟩
          · intro h0
            exact hsh (by rw [cellsShapeB_modifyCell]; exact h0)
          · intro h0
            exact hco (wfcoords_modifyCell _ _ _ _
              (fun c => ⟨rfl, rfl⟩) h0)
          · intro h0
            exact hun (allUnrev_modifyCell _ _ _ _
              (fun c => rfl) h0)

theorem newGameState_inv {rows cols mines : Nat}
    {stream : Nat → Nat × Nat} {fuel : Nat} {s : GameState}
    (h : newGameState rows cols mines stream fuel = some s) : Inv s := by
  unfold newGameState at h
  obtain ⟨hsh, hco, hun⟩ := placeMinesAux_inv stream fuel 0 mines _ s h
  have h0shape : cellsShapeB
      { rows := rows, cols := cols, mines := mines,
        cells := mkCells rows cols, counterValue := mines,
        cellsToReveal := cols * rows - mines, revealedCells := 0,
        isGameFinished := false, outcome := none } = true := by
    simp only [cellsShapeB, mkCells, Bool.and_eq_true, beq_iff_eq,
      List.all_eq_true, List.length_map, List.length_range]
    constructor
    · trivial
    · intro row hrow
      simp only [List.mem_map, List.mem_range] at hrow
      obtain ⟨r, _, hr⟩ := hrow
      subst hr
      simp
  have hmk : ∀ y x c, getCell
      { rows := rows, cols := cols, mines := mines,
        cells := mkCells rows cols, counterValue := mines,
        cellsToReveal := cols * rows - mines, revealedCells := 0,
        isGameFinished := false, outcome := none } y x = some c →
      c = { x := x, y := y, isMine := false, isFlagged := false,
            isReveal := false, value := none } := by
    intro y x c hg
    unfold getCell at hg
    rw [mkCells_getCell] at hg
    by_cases hb : y < rows ∧ x < cols
    · rw [if_pos hb] at hg
      simpa using hg.symm
    · rw [if_neg hb] at hg
      exact absurd hg (by simp)
  refine ⟨hsh h0shape, hco ?_, ?_⟩
  · intro y x c hg
    rw [hmk y x c hg]
    exact ⟨rfl, rfl⟩
  · have hall : AllUnrev s := hun (by
      intro y x c hg
      rw [hmk y x c hg])
    intro y x c hg hm hr
    exact absurd hr (by rw [hall y x c hg]; simp)

theorem reachable_inv {s : GameState} (h : Reachable s) : Inv s := by
  induction h with
  | init rows cols mines stream fuel s hnew => exact newGameState_inv hnew
  | reveal s fuel y x hreach ih =>
    unfold handleCellClick
    cases hl : lookupCellI s y x with
    | none => exact ih
    | some oc =>
      cases oc with
      | none =>
        dsimp only
        split <;> exact ih
      | some c =>
        dsimp only
        cases hc : clickCell fuel s y.toNat x.toNat with
        | none => exact ih
        | some s1 => exact (clickCell_inv fuel s y.toNat x.toNat s1 hc).2 ih
  | flag s y x hreach ih =>
    unfold handleCellContextMenu
    cases hl : lookupCellI s y x with
    | none => exact ih
    | some oc =>
      cases oc with
      | none => exact ih
      | some c =>
        dsimp only
        by_cases hfin : (c.isReveal || s.isGameFinished) = true
        · simp only [hfin, if_true]
          exact ih
        · have hfin' : (c.isReveal || s.isGameFinished) = false := by
            simpa using hfin
          simp only [hfin', Bool.false_eq_true, if_false]
          have hmodInv : Inv (modifyCell s y.toNat x.toNat Cell.toggleFlag) := by
            have hpres := preserves_modifyCell s y.toNat x.toNat
              Cell.toggleFlag
              (fun c => by unfold Cell.toggleFlag; split <;> rfl)
              (fun c => by unfold Cell.toggleFlag; split <;> exact ⟨rfl, rfl⟩)
            refine inv_mk hpres ih ?_
            intro y1 x1 c1 hg1 hm1 hr1
            rw [minesAround_of_preserves hpres]
            by_cases hcase : y.toNat = y1 ∧ x.toNat = x1
            · obtain ⟨hy, hx⟩ := hcase
              subst hy hx
              rw [getCell_modifyCell_self] at hg1
              cases hg : getCell s y.toNat x.toNat with
              | none => rw [hg] at hg1; exact absurd hg1 (by simp)
              | some c0 =>
                rw [hg] at hg1
                simp only [Option.map, Option.some.injEq] at hg1
                subst hg1
                have hm0 : c0.isMine = false := by
                  revert hm1
                  unfold Cell.toggleFlag
                  split <;> exact id
                have hr0 : c0.isReveal = true := by
                  revert hr1
                  unfold Cell.toggleFlag
                  split <;> exact id
                have := ih.2.2 y.toNat x.toNat c0 hg hm0 hr0
                revert this
                unfold Cell.toggleFlag
                split <;> exact id
            · rw [getCell_modifyCell_ne s y.toNat x.toNat y1 x1 _
                (by tauto)] at hg1
              exact ih.2.2 y1 x1 c1 hg1 hm1 hr1
          by_cases hflag : c.isFlagged = true
          · simp only [hflag, if_true]
            exact hmodInv
          · have hflag' : c.isFlagged = false := by simpa using hflag
            simp only [hflag', Bool.false_eq_true, if_false]
            by_cases hcnt : (s.counterValue != 0) = true
            · simp only [hcnt, if_true]
              exact hmodInv
            · simp only [hcnt, Bool.false_eq_true, if_false]
              exact ih

theorem getCell_bounds {s : GameState} {y x : Nat} {c : Cell}
    (hs : cellsShapeB s = true) (hg : getCell s y x = some c) :
    y < s.rows ∧ x < s.cols := by
  obtain ⟨row, hrow, hcol⟩ := getCell_eq_some hg
  have hspec := cellsShape_spec hs
  constructor
  · by_contra hy
    have hnone : listGet? s.cells y = none := by
      rw [listGet?_eq_none_iff]
      omega
    rw [hnone] at hrow
    exact absurd hrow (by simp)
  · by_contra hx
    have hlen := hspec.2 row (listGet?_mem hrow)
    have hnone : listGet? row x = none := by
      rw [listGet?_eq_none_iff]
      omega
    rw [hnone] at hcol
    exact absurd hcol (by simp)

theorem countP_filter_eq (p q : α → Bool) :
    ∀ l : List α, (∀ a ∈ l, q a = false → p a = false) →
      (l.filter q).countP p = l.countP p := by
  intro l
  induction l with
  | nil => intro _; rfl
  | cons a t ih =>
    intro h
    rw [List.filter_cons]
    by_cases hq : q a = true
    · rw [if_pos hq, List.countP_cons, List.countP_cons,
        ih fun b hb hf => h b (List.mem_cons_of_mem a hb) hf]
    · have hq' : q a = false := by simpa using hq
      rw [if_neg (by simp [hq'])]
      have hp := h a (List.mem_cons_self a t) hq'
      rw [List.countP_cons,
        ih fun b hb hf => h b (List.mem_cons_of_mem a hb) hf, hp]
      simp

theorem length_flatMap_le {l : List α} {f : α → List β} (k m : Nat)
    (hl : l.length ≤ k) (hf : ∀ a ∈ l, (f a).length ≤ m) :
    (l.flatMap f).length ≤ k * m := by
  induction l generalizing k with
  | nil => simp
  | cons a t ih =>
    cases k with
    | zero => simp at hl
    | succ k1 =>
      rw [List.flatMap_cons, List.length_append]
      have h1 := hf a (List.mem_cons_self a t)
      have h2 := ih (k := k1) (by simpa using hl)
        (fun b hb => hf b (List.mem_cons_of_mem a hb))
      rw [Nat.succ_mul]
      omega

theorem neighborhood_length_le (rows cols y x : Nat) :
    (neighborhood rows cols y x).length ≤ 9 := by
  unfold neighborhood clampRange
  have h := length_flatMap_le (l := List.range' (y - 1)
      (min (y + 1) (rows - 1) + 1 - (y - 1)))
    (f := fun r => (List.range' (x - 1)
      (min (x + 1) (cols - 1) + 1 - (x - 1))).map fun c => (r, c))
    3 3 (by simp [List.length_range']; omega)
    (fun a _ => by simp [List.length_range']; omega)
  omega

/-- C5, amended.  For every **non-hazard** revealed cell of any
reachable session state, the stored `value` equals the number of
hazards among its up-to-8 in-bounds neighbours with the cell itself
excluded, an integer between 0 and 8.  (The restriction to non-hazard
cells is forced by the counterexample: the scan loop includes the
centre cell, so a revealed hazard stores its neighbour count plus
one.) -/
theorem C5_nonhazard_adjacent_correct (s : GameState) (y x : Nat)
    (c : Cell) (hreach : Reachable s) (hg : getCell s y x = some c)
    (hm : c.isMine = false) (hr : c.isReveal = true) :
    c.value = some (adjacentMinesExclSelf s y x) ∧
    adjacentMinesExclSelf s y x ≤ 8 := by
  have hinv := reachable_inv hreach
  have hval := hinv.2.2 y x c hg hm hr
  have hbounds := getCell_bounds hinv.1 hg
  have hself := mem_neighborhood_self s.rows s.cols y x hbounds.1 hbounds.2
  have hmfalse : isMineAt s y x = false := by simp [isMineAt, hg, hm]
  have hexcl : adjacentMinesExclSelf s y x = minesAround s y x := by
    unfold adjacentMinesExclSelf minesAround
    apply countP_filter_eq
    intro p _ hq
    have hp : p = (y, x) := by simpa using hq
    subst hp
    exact hmfalse
  constructor
  · rw [hexcl]
    exact hval
  · unfold adjacentMinesExclSelf
    have h1 : ((neighborhood s.rows s.cols y x).filter
        fun p => p ≠ (y, x)).length <
        (neighborhood s.rows s.cols y x).length := by
      rw [List.length_filter_lt_length_iff_exists]
      exact ⟨(y, x), hself, by simp⟩
    have h2 := neighborhood_length_le s.rows s.cols y x
    have h3 := List.countP_le_length
      (p := fun p => isMineAt s p.1 p.2)
      (l := (neighborhood s.rows s.cols y x).filter fun p => p ≠ (y, x))
    omega

/-- The amended adjacency theorem instantiated on the reachable
concrete state `stateC5` at its revealed safe cell. -/
theorem C5_nonhazard_adjacent_correct_witness :
    ({ x := 1, y := 0, isMine := false, isFlagged := false,
       isReveal := true, value := some 1 } : Cell).value =
      some (adjacentMinesExclSelf stateC5 0 1) ∧
    adjacentMinesExclSelf stateC5 0 1 ≤ 8 :=
  C5_nonhazard_adjacent_correct stateC5 0 1 _
    (Reachable.reveal initC5 9 0 1
      (Reachable.init 1 2 1 (fun _ => (0, 0)) 3 initC5 (by decide)))
    (by decide) rfl rfl

/-- The amended loss theorem instantiated on the concrete 1x2 board
with its unflagged mine at `(0,0)`. -/
theorem C4_unflagged_hazard_loss_witness :
    ∃ s1, clickCell 1 demoState 0 0 = some s1 ∧
      s1.isGameFinished = true ∧ s1.outcome = some false ∧
      (getCell s1 0 0).map (fun d => d.isReveal) = some true :=
  C4_unflagged_hazard_loss 0 demoState 0 0
    { x := 0, y := 0, isMine := true, isFlagged := false,
      isReveal := false, value := none }
    (by decide) rfl rfl rfl rfl rfl (by decide) (by decide)

/-- The terminal-state theorem instantiated on a finished session. -/
theorem C8_finished_requests_noop_witness :
    (handleCellClick 1 demoFinished 0 0).2 = demoFinished ∧
    (handleCellContextMenu demoFinished 0 1).2 = demoFinished :=
  C8_finished_requests_noop 1 demoFinished 0 0 0 1 rfl

/-- The out-of-bounds theorem instantiated at coordinates `(-1, 5)` on
the 1x2 board. -/
theorem C10_out_of_bounds_noop_witness :
    (handleCellClick 1 demoState (-1) 5).2 = demoState ∧
    (handleCellContextMenu demoState (-1) 5).2 = demoState :=
  C10_out_of_bounds_noop 1 demoState (-1) 5 (by decide) (Or.inl (by decide))

/-- The flag-counter theorem's unflag clause instantiated on the
session with a spent flag on the mine cell. -/
theorem C9_flag_counter_spec_witness :
    (handleCellContextMenu demoFlagged 0 0).2.counterValue =
      demoFlagged.counterValue + 1 ∧
    (getCell (handleCellContextMenu demoFlagged 0 0).2
      (0 : Int).toNat (0 : Int).toNat).map
      (fun d => d.isFlagged) = some false :=
  C9_flag_counter_spec.2.2.1 demoFlagged 0 0
    { x := 0, y := 0, isMine := true, isFlagged := true,
      isReveal := false, value := none }
    (by decide) rfl rfl rfl

end Saper
